import Mathlib

/-!
Verification of the sort-state engine of `dioxus-sortable`
(`src/use_sorter.rs`): the descriptor model (`SortBy`, `Direction`,
`NullHandling`), the `UseSorter` state machine (`toggle_field`,
`set_field`) and the comparator-driven stable sort (`sort_by`).

The Rust hook state (two `UseState` cells) is embedded as a plain
structure `UseSorter` with explicit state-passing; the `Sortable` trait
is embedded as a record of its two methods; the `PartialOrdBy` trait
method `partial_cmp_by` (for the one field being sorted) is embedded as
a function `pcmp : T → T → Option Ordering`.  Rust's `slice::sort_by`
is a stable sort and is embedded as `List.mergeSort`; the `unreachable!`
panic inside the comparator closure is embedded by returning `none`.
-/

/-- Sort direction (`Direction` in `use_sorter.rs`). -/
inductive Direction where
  | Ascending
  | Descending
deriving DecidableEq, Repr

namespace Direction

/-- Embeds `Direction::invert`. -/
def invert : Direction → Direction
  | .Ascending => .Descending
  | .Descending => .Ascending

end Direction

/-- Null placement (`NullHandling` in `use_sorter.rs`). -/
inductive NullHandling where
  | First
  | Last
deriving DecidableEq, Repr

/-- Embeds `NullHandling::default()` (the `#[default]` mark on `Last`). -/
def NullHandling.default : NullHandling := .Last

/-- Field sort descriptor (`SortBy` in `use_sorter.rs`). -/
inductive SortBy where
  | Fixed (dir : Direction)
  | Reversible (dir : Direction)
deriving DecidableEq, Repr

namespace SortBy

/-- Embeds `SortBy::unsortable`. -/
def unsortable : Option SortBy := none

/-- Embeds `SortBy::increasing`. -/
def increasing : Option SortBy := some (.Fixed .Ascending)

/-- Embeds `SortBy::decreasing`. -/
def decreasing : Option SortBy := some (.Fixed .Descending)

/-- Embeds `SortBy::increasing_or_decreasing`. -/
def increasing_or_decreasing : Option SortBy := some (.Reversible .Ascending)

/-- Embeds `SortBy::decreasing_or_increasing`. -/
def decreasing_or_increasing : Option SortBy := some (.Reversible .Descending)

/-- Embeds `SortBy::default()`: `Self::increasing_or_decreasing().unwrap()`. -/
def default : SortBy := increasing_or_decreasing.get rfl

/-- Embeds `SortBy::direction`. -/
def direction : SortBy → Direction
  | .Fixed dir => dir
  | .Reversible dir => dir

/-- Embeds `SortBy::ensure_direction`. -/
def ensure_direction (sb : SortBy) (dir : Direction) : Direction :=
  match sb with
  | .Fixed allowed => if allowed = dir then dir else allowed
  | .Reversible _ => dir

end SortBy

/-- Embeds the `Sortable` trait: a record of its methods for a field
enum `F`.  `null_handling` carries the (possibly overridden) provided
method whose default body is `NullHandling.default`. -/
structure Sortable (F : Type) where
  sort_by : F → Option SortBy
  null_handling : F → NullHandling

/-- Embeds `Direction::from_field`:
`field.sort_by().unwrap_or_default().direction()`. -/
def Direction.from_field {F : Type} (inst : Sortable F) (f : F) : Direction :=
  ((inst.sort_by f).getD SortBy.default).direction

/-- Embeds the `UseSorter` hook state: the contents of its two
`UseState` cells. -/
structure UseSorter (F : Type) where
  field : F
  direction : Direction
deriving DecidableEq, Repr

/-- Embeds `use_sorter`: initial state from `F::default()` (passed here
explicitly as `d0`). -/
def use_sorter {F : Type} (inst : Sortable F) (d0 : F) : UseSorter F :=
  { field := d0, direction := Direction.from_field inst d0 }

namespace UseSorter

/-- Embeds `UseSorter::get_state`. -/
def get_state {F : Type} (s : UseSorter F) : F × Direction :=
  (s.field, s.direction)

/-- Embeds `UseSorter::toggle_field`.  The `*self.field.get() == field`
test uses the old field value; both cells are then written, producing
the new state returned here. -/
def toggle_field {F : Type} [DecidableEq F] (inst : Sortable F)
    (s : UseSorter F) (f : F) : UseSorter F :=
  match inst.sort_by f with
  | none => s
  | some sb =>
    match sb with
    | .Fixed dir => { field := f, direction := dir }
    | .Reversible dir =>
      let dir := if s.field = f then s.direction.invert else dir
      { field := f, direction := dir }

/-- Embeds `UseSorter::set_field`. -/
def set_field {F : Type} (inst : Sortable F) (s : UseSorter F) (f : F)
    (dir : Direction) : UseSorter F :=
  match inst.sort_by f with
  | none => s
  | some sb => { field := f, direction := sb.ensure_direction dir }

end UseSorter

/-- The direction-application closure inside `sort_by`
(`|o| match dir {{ Ascending => o, Descending => o.reverse() }}`);
Rust's `Ordering::reverse` is Lean's `Ordering.swap`. -/
def apply_direction (dir : Direction) (o : Ordering) : Ordering :=
  match dir with
  | .Ascending => o
  | .Descending => o.swap

/-- The comparator closure passed to `items.sort_by` in `sort_by`,
with the `unreachable!` panic of its `(false, false)` arm embedded as
`none`.  `pcmp` is the `PartialOrdBy::partial_cmp_by` method applied to
the active field. -/
def cmp_entry {T : Type} (pcmp : T → T → Option Ordering)
    (dir : Direction) (nulls : NullHandling) (a b : T) : Option Ordering :=
  match pcmp a b with
  | some o => some (apply_direction dir o)
  | none =>
    match (pcmp a a).isNone, (pcmp b b).isNone with
    | true, true => some Ordering.eq
    | true, false =>
      some (match nulls with | .First => Ordering.lt | .Last => Ordering.gt)
    | false, true =>
      some (match nulls with | .First => Ordering.gt | .Last => Ordering.lt)
    | false, false => none

/-- The Boolean "may come first" relation induced by `cmp_entry`: the
stable sort keeps `a` before `b` exactly when the comparator does not
return `Greater`.  (The `none` arm is never reached by `sort_by`, whose
guard rejects inputs containing a pair on which the comparator would
panic.) -/
def cmp_le {T : Type} (pcmp : T → T → Option Ordering)
    (dir : Direction) (nulls : NullHandling) (a b : T) : Bool :=
  match cmp_entry pcmp dir nulls a b with
  | some Ordering.gt => false
  | _ => true

/-- Embeds the free function `sort_by` of `use_sorter.rs`.
`slice::sort_by` is a stable sort, embedded as `List.mergeSort`; a run
in which the comparator closure would hit its `unreachable!` arm is a
panic, embedded as `none` (guarded conservatively over all pairs of
items). -/
def sort_by {T : Type} (pcmp : T → T → Option Ordering)
    (dir : Direction) (nulls : NullHandling) (items : List T) :
    Option (List T) :=
  if items.all (fun a => items.all (fun b =>
      (cmp_entry pcmp dir nulls a b).isSome)) then
    some (items.mergeSort (cmp_le pcmp dir nulls))
  else none

/-- Embeds `UseSorter::sort`: sorts with the current field and
direction and that field's null handling.  `pcmp` is the
field-indexed `PartialOrdBy::partial_cmp_by`. -/
def UseSorter.sort {F T : Type} (inst : Sortable F)
    (pcmp : F → T → T → Option Ordering) (s : UseSorter F)
    (items : List T) : Option (List T) :=
  sort_by (pcmp s.field) s.direction (inst.null_handling s.field) items

/-- An item is a null/unknown value exactly when its self-comparison is
`None` (the spec's classification mechanism). -/
def is_null {T : Type} (pcmp : T → T → Option Ordering) (x : T) : Bool :=
  (pcmp x x).isNone

/-- The comparator contract of a lawful `PartialOrdBy` implementation:
a comparison is `None` exactly when one side is a null value; the
comparator is consistent under argument swap (as `PartialOrd` demands);
and `≤` (result not `Greater`) is transitive on non-null values. -/
structure CmpContract {T : Type} (pcmp : T → T → Option Ordering) : Prop where
  none_iff : ∀ a b, pcmp a b = none ↔
    (is_null pcmp a = true ∨ is_null pcmp b = true)
  symm : ∀ a b, pcmp b a = (pcmp a b).map Ordering.swap
  le_trans : ∀ a b c, is_null pcmp a = false → is_null pcmp b = false →
    is_null pcmp c = false → pcmp a b ≠ some Ordering.gt →
    pcmp b c ≠ some Ordering.gt → pcmp a c ≠ some Ordering.gt

/-- States reachable by the `UseSorter` hook: the initial state built
by `use_sorter` from `F::default()` (here `d0`), closed under
`toggle_field` and `set_field`. -/
inductive Reachable {F : Type} [DecidableEq F] (inst : Sortable F) (d0 : F) :
    UseSorter F → Prop where
  | init : Reachable inst d0 (use_sorter inst d0)
  | toggle (s : UseSorter F) (f : F) : Reachable inst d0 s →
      Reachable inst d0 (UseSorter.toggle_field inst s f)
  | set (s : UseSorter F) (f : F) (d : Direction) : Reachable inst d0 s →
      Reachable inst d0 (UseSorter.set_field inst s f d)

/-- The spec's state invariant: the current direction is permitted by
the active field's descriptor; in particular an unsortable field is
never active. -/
def DirectionOk {F : Type} (inst : Sortable F) (s : UseSorter F) : Prop :=
  match inst.sort_by s.field with
  | none => False
  | some (.Fixed d) => s.direction = d
  | some (.Reversible _) => True

/-! Concrete instances used to evaluate the development on closed
inputs, mirroring the crate's test module: a row type with a NaN-like
null value, a fully ordered row type, a row type on which all rows
compare `Equal`, and small field enums. -/

/-- A row with a null (`NaN`-like) value and two ordered values, as in
the crate's `Row(f64)` test type. -/
inductive Row where
  | nan
  | one
  | two
deriving DecidableEq, Repr

/-- The comparator of `Row`, mirroring `f64::partial_cmp`: `nan` is
incomparable with everything, `one < two`. -/
def pcmpRow : Row → Row → Option Ordering
  | .nan, _ => none
  | _, .nan => none
  | .one, .one => some .eq
  | .one, .two => some .lt
  | .two, .one => some .gt
  | .two, .two => some .eq

/-- Two distinct rows that carry equal sort keys. -/
inductive RowEq where
  | r1
  | r2
deriving DecidableEq, Repr

/-- The comparator of `RowEq`: every pair compares `Equal`. -/
def pcmpEq : RowEq → RowEq → Option Ordering :=
  fun _ _ => some Ordering.eq

/-- A field enum with two reversible fields (initial `Ascending`), one
fixed-`Descending` field and one unsortable field. -/
inductive TField where
  | alpha
  | beta
  | gamma
  | delta
deriving DecidableEq, Repr

/-- A `Sortable` instance for `TField` using the trait's default
`null_handling`. -/
def instT : Sortable TField where
  sort_by := fun f =>
    match f with
    | .alpha => some (.Reversible .Ascending)
    | .beta => some (.Reversible .Ascending)
    | .gamma => some (.Fixed .Descending)
    | .delta => none
  null_handling := fun _ => NullHandling.default

/-- A one-variant field enum whose only field is unsortable. -/
inductive UField where
  | only
deriving DecidableEq, Repr

/-- A `Sortable` instance whose default field is unsortable. -/
def instU : Sortable UField where
  sort_by := fun _ => none
  null_handling := fun _ => NullHandling.default

/-! Helper lemmas about the comparator closure under the contract. -/

theorem pcmp_some_of_nonnull {T : Type} {pcmp : T → T → Option Ordering}
    (hc : CmpContract pcmp) {a b : T} (ha : is_null pcmp a = false)
    (hb : is_null pcmp b = false) : ∃ o, pcmp a b = some o := by
  cases h : pcmp a b with
  | none =>
    rcases (hc.none_iff a b).mp h with h' | h' <;> simp_all
  | some o => exact ⟨o, rfl⟩

theorem pcmp_none_left {T : Type} {pcmp : T → T → Option Ordering}
    (hc : CmpContract pcmp) {a : T} (ha : is_null pcmp a = true) (b : T) :
    pcmp a b = none :=
  (hc.none_iff a b).mpr (Or.inl ha)

theorem pcmp_none_right {T : Type} {pcmp : T → T → Option Ordering}
    (hc : CmpContract pcmp) {b : T} (hb : is_null pcmp b = true) (a : T) :
    pcmp a b = none :=
  (hc.none_iff a b).mpr (Or.inr hb)

theorem cmp_entry_pcmp_some {T : Type} {pcmp : T → T → Option Ordering}
    {dir : Direction} {nulls : NullHandling} {a b : T} {o : Ordering}
    (h : pcmp a b = some o) :
    cmp_entry pcmp dir nulls a b = some (apply_direction dir o) := by
  unfold cmp_entry
  rw [h]

theorem cmp_entry_null_null {T : Type} {pcmp : T → T → Option Ordering}
    {dir : Direction} {nulls : NullHandling} {a b : T}
    (hab : pcmp a b = none) (ha : is_null pcmp a = true)
    (hb : is_null pcmp b = true) :
    cmp_entry pcmp dir nulls a b = some Ordering.eq := by
  unfold is_null at ha hb
  unfold cmp_entry
  rw [hab, ha, hb]

theorem cmp_entry_null_nonnull {T : Type} {pcmp : T → T → Option Ordering}
    {dir : Direction} {nulls : NullHandling} {a b : T}
    (hab : pcmp a b = none) (ha : is_null pcmp a = true)
    (hb : is_null pcmp b = false) :
    cmp_entry pcmp dir nulls a b =
      some (match nulls with | .First => Ordering.lt | .Last => Ordering.gt) := by
  unfold is_null at ha hb
  unfold cmp_entry
  rw [hab, ha, hb]

theorem cmp_entry_nonnull_null {T : Type} {pcmp : T → T → Option Ordering}
    {dir : Direction} {nulls : NullHandling} {a b : T}
    (hab : pcmp a b = none) (ha : is_null pcmp a = false)
    (hb : is_null pcmp b = true) :
    cmp_entry pcmp dir nulls a b =
      some (match nulls with | .First => Ordering.gt | .Last => Ordering.lt) := by
  unfold is_null at ha hb
  unfold cmp_entry
  rw [hab, ha, hb]

theorem cmp_le_eq_true_iff {T : Type} {pcmp : T → T → Option Ordering}
    {dir : Direction} {nulls : NullHandling} {a b : T} :
    cmp_le pcmp dir nulls a b = true ↔
      cmp_entry pcmp dir nulls a b ≠ some Ordering.gt := by
  unfold cmp_le
  cases h : cmp_entry pcmp dir nulls a b with
  | none => simp
  | some o => cases o <;> simp

theorem cmp_le_total {T : Type} {pcmp : T → T → Option Ordering}
    (hc : CmpContract pcmp) (dir : Direction) (nulls : NullHandling)
    (a b : T) : cmp_le pcmp dir nulls a b || cmp_le pcmp dir nulls b a := by
  rw [Bool.or_eq_true, cmp_le_eq_true_iff, cmp_le_eq_true_iff]
  cases ha : is_null pcmp a <;> cases hb : is_null pcmp b
  · obtain ⟨o, h⟩ := pcmp_some_of_nonnull hc ha hb
    have h' : pcmp b a = some o.swap := by rw [hc.symm a b, h]; rfl
    rw [cmp_entry_pcmp_some h, cmp_entry_pcmp_some h']
    cases o <;> cases dir <;> simp [apply_direction, Ordering.swap]
  · have hab : pcmp a b = none := pcmp_none_right hc hb a
    have hba : pcmp b a = none := pcmp_none_left hc hb a
    rw [cmp_entry_nonnull_null hab ha hb, cmp_entry_null_nonnull hba hb ha]
    cases nulls <;> simp
  · have hab : pcmp a b = none := pcmp_none_left hc ha b
    have hba : pcmp b a = none := pcmp_none_right hc ha b
    rw [cmp_entry_null_nonnull hab ha hb, cmp_entry_nonnull_null hba hb ha]
    cases nulls <;> simp
  · have hab : pcmp a b = none := pcmp_none_left hc ha b
    have hba : pcmp b a = none := pcmp_none_left hc hb a
    rw [cmp_entry_null_null hab ha hb]
    simp

theorem cmp_le_trans {T : Type} {pcmp : T → T → Option Ordering}
    (hc : CmpContract pcmp) (dir : Direction) (nulls : NullHandling)
    (a b c : T) (hab : cmp_le pcmp dir nulls a b = true)
    (hbc : cmp_le pcmp dir nulls b c = true) :
    cmp_le pcmp dir nulls a c = true := by
  rw [cmp_le_eq_true_iff] at hab hbc ⊢
  cases ha : is_null pcmp a <;> cases hb : is_null pcmp b <;>
    cases hcn : is_null pcmp c
  · -- a, b, c all non-null
    obtain ⟨oab, hoab⟩ := pcmp_some_of_nonnull hc ha hb
    obtain ⟨obc, hobc⟩ := pcmp_some_of_nonnull hc hb hcn
    obtain ⟨oac, hoac⟩ := pcmp_some_of_nonnull hc ha hcn
    rw [cmp_entry_pcmp_some hoab] at hab
    rw [cmp_entry_pcmp_some hobc] at hbc
    rw [cmp_entry_pcmp_some hoac]
    cases dir with
    | Ascending =>
      simp only [apply_direction] at hab hbc ⊢
      have h1 : pcmp a b ≠ some Ordering.gt := by
        rw [hoab]; simpa using hab
      have h2 : pcmp b c ≠ some Ordering.gt := by
        rw [hobc]; simpa using hbc
      have h3 := hc.le_trans a b c ha hb hcn h1 h2
      rw [hoac] at h3
      simpa using h3
    | Descending =>
      simp only [apply_direction] at hab hbc ⊢
      have hba : pcmp b a = some oab.swap := by rw [hc.symm a b, hoab]; rfl
      have hcb : pcmp c b = some obc.swap := by rw [hc.symm b c, hobc]; rfl
      have hca : pcmp c a = some oac.swap := by rw [hc.symm a c, hoac]; rfl
      have h1 : pcmp c b ≠ some Ordering.gt := by
        rw [hcb]; simpa using hbc
      have h2 : pcmp b a ≠ some Ordering.gt := by
        rw [hba]; simpa using hab
      have h3 := hc.le_trans c b a hcn hb ha h1 h2
      rw [hca] at h3
      simpa using h3
  · -- a, b non-null; c null
    have h1 : pcmp b c = none := pcmp_none_right hc hcn b
    have h2 : pcmp a c = none := pcmp_none_right hc hcn a
    rw [cmp_entry_nonnull_null h1 hb hcn] at hbc
    rw [cmp_entry_nonnull_null h2 ha hcn]
    cases nulls <;> simp_all
  · -- a non-null, b null, c non-null: both hypotheses cannot hold
    have h1 : pcmp a b = none := pcmp_none_right hc hb a
    have h2 : pcmp b c = none := pcmp_none_left hc hb c
    rw [cmp_entry_nonnull_null h1 ha hb] at hab
    rw [cmp_entry_null_nonnull h2 hb hcn] at hbc
    cases nulls <;> simp_all
  · -- a non-null, b null, c null
    have h1 : pcmp a b = none := pcmp_none_right hc hb a
    have h2 : pcmp a c = none := pcmp_none_right hc hcn a
    rw [cmp_entry_nonnull_null h1 ha hb] at hab
    rw [cmp_entry_nonnull_null h2 ha hcn]
    cases nulls <;> simp_all
  · -- a null, b non-null, c non-null
    have h1 : pcmp a b = none := pcmp_none_left hc ha b
    have h2 : pcmp a c = none := pcmp_none_left hc ha c
    rw [cmp_entry_null_nonnull h1 ha hb] at hab
    rw [cmp_entry_null_nonnull h2 ha hcn]
    cases nulls <;> simp_all
  · -- a null, b non-null, c null
    have h2 : pcmp a c = none := pcmp_none_left hc ha c
    rw [cmp_entry_null_null h2 ha hcn]
    simp
  · -- a null, b null, c non-null
    have h1 : pcmp b c = none := pcmp_none_left hc hb c
    have h2 : pcmp a c = none := pcmp_none_left hc ha c
    rw [cmp_entry_null_nonnull h1 hb hcn] at hbc
    rw [cmp_entry_null_nonnull h2 ha hcn]
    cases nulls <;> simp_all
  · -- all null
    have h2 : pcmp a c = none := pcmp_none_left hc ha c
    rw [cmp_entry_null_null h2 ha hcn]
    simp

theorem cmp_le_first_false {T : Type} {pcmp : T → T → Option Ordering}
    (hc : CmpContract pcmp) (dir : Direction) {a b : T}
    (ha : is_null pcmp a = false) (hb : is_null pcmp b = true) :
    cmp_le pcmp dir NullHandling.First a b = false := by
  have hab : pcmp a b = none := pcmp_none_right hc hb a
  unfold cmp_le
  rw [cmp_entry_nonnull_null hab ha hb]

theorem cmp_le_last_false {T : Type} {pcmp : T → T → Option Ordering}
    (hc : CmpContract pcmp) (dir : Direction) {a b : T}
    (ha : is_null pcmp a = true) (hb : is_null pcmp b = false) :
    cmp_le pcmp dir NullHandling.Last a b = false := by
  have hab : pcmp a b = none := pcmp_none_left hc ha b
  unfold cmp_le
  rw [cmp_entry_null_nonnull hab ha hb]

/-! A list sorted under a relation that never lets a non-`P` element
precede a `P` element splits as all-`P` elements first. -/

theorem pairwise_dropWhile_not {T : Type} {le : T → T → Bool} {P : T → Bool}
    (hmono : ∀ a b, P a = false → P b = true → le a b = false) :
    ∀ {l : List T}, l.Pairwise (fun a b => le a b = true) →
      ∀ x ∈ l.dropWhile P, P x = false := by
  intro l
  induction l with
  | nil => intro _ x hx; simp [List.dropWhile] at hx
  | cons a t ih =>
    intro hp x hx
    rw [List.pairwise_cons] at hp
    obtain ⟨h1, ht⟩ := hp
    rw [List.dropWhile_cons] at hx
    cases hPa : P a with
    | true =>
      rw [hPa] at hx
      simp at hx
      exact ih ht x hx
    | false =>
      rw [hPa] at hx
      simp at hx
      rcases hx with rfl | hx
      · exact hPa
      · cases hPx : P x with
        | false => rfl
        | true => exact absurd (h1 x hx) (by simp [hmono a x hPa hPx])

theorem sorted_partition {T : Type} {le : T → T → Bool} {P : T → Bool}
    (hmono : ∀ a b, P a = false → P b = true → le a b = false)
    {l : List T} (hp : l.Pairwise (fun a b => le a b = true)) :
    (∀ x ∈ l.take (l.countP P), P x = true) ∧
    (∀ x ∈ l.drop (l.countP P), P x = false) := by
  have hdrop := pairwise_dropWhile_not hmono hp
  have hsplit : l.takeWhile P ++ l.dropWhile P = l :=
    List.takeWhile_append_dropWhile P l
  have hcount : l.countP P = (l.takeWhile P).length := by
    conv_lhs => rw [← hsplit]
    rw [List.countP_append]
    have h1 : (l.takeWhile P).countP P = (l.takeWhile P).length :=
      List.countP_eq_length.mpr (fun a ha => List.mem_takeWhile_imp ha)
    have h2 : (l.dropWhile P).countP P = 0 :=
      List.countP_eq_zero.mpr (fun a ha => by simp [hdrop a ha])
    rw [h1, h2]
    omega
  have htake : l.take (l.takeWhile P).length = l.takeWhile P := by
    have h := List.take_left (l.takeWhile P) (l.dropWhile P)
    rw [hsplit] at h
    exact h
  have hdropn : l.drop (l.takeWhile P).length = l.dropWhile P := by
    have h := List.drop_left (l.takeWhile P) (l.dropWhile P)
    rw [hsplit] at h
    exact h
  constructor
  · intro x hx
    rw [hcount, htake] at hx
    exact List.mem_takeWhile_imp hx
  · intro x hx
    rw [hcount, hdropn] at hx
    exact hdrop x hx

/-! Contract proofs for the concrete comparators. -/

theorem pcmpRow_contract : CmpContract pcmpRow := by
  constructor
  · intro a b; cases a <;> cases b <;> decide
  · intro a b; cases a <;> cases b <;> rfl
  · intro a b c; cases a <;> cases b <;> cases c <;> decide

theorem Direction.invert_invert (d : Direction) : d.invert.invert = d := by
  cases d <;> rfl

/-- C2: for a field `f` with descriptor `Reversible(d)`, `toggle_field f`
inverts the current direction when `f` is already the active field, and
switches to `(f, d)` — `f`'s configured initial direction — when a
different field is active. -/
theorem toggle_reversible_behavior {F : Type} [DecidableEq F]
    (inst : Sortable F) (f : F) (d : Direction) (s : UseSorter F)
    (h : inst.sort_by f = some (SortBy.Reversible d)) :
    (s.field = f →
      UseSorter.toggle_field inst s f = ⟨f, s.direction.invert⟩) ∧
    (s.field ≠ f → UseSorter.toggle_field inst s f = ⟨f, d⟩) := by
  constructor <;> intro hs <;> simp [UseSorter.toggle_field, h, hs]

/-- Witness for C2: on `instT`, re-toggling the active reversible field
`alpha` inverts the direction, while toggling from `alpha` to the
reversible field `beta` resets to `beta`'s initial direction
(`Ascending`), not the previous `Descending`. -/
theorem toggle_reversible_behavior_witness :
    UseSorter.toggle_field instT ⟨TField.alpha, Direction.Ascending⟩
        TField.alpha = ⟨TField.alpha, Direction.Descending⟩ ∧
    UseSorter.toggle_field instT ⟨TField.alpha, Direction.Descending⟩
        TField.beta = ⟨TField.beta, Direction.Ascending⟩ :=
  ⟨(toggle_reversible_behavior instT TField.alpha Direction.Ascending
      ⟨TField.alpha, Direction.Ascending⟩ rfl).1 rfl,
   (toggle_reversible_behavior instT TField.beta Direction.Ascending
      ⟨TField.alpha, Direction.Descending⟩ rfl).2 (by decide)⟩

/-- C3: `set_field f r` silently clamps the requested direction to the
allowed one on a `Fixed` field and keeps it unchanged on a `Reversible`
field. -/
theorem set_field_directions {F : Type} (inst : Sortable F) (f : F)
    (r : Direction) (s : UseSorter F) :
    (∀ allowed, inst.sort_by f = some (SortBy.Fixed allowed) →
      UseSorter.set_field inst s f r = ⟨f, allowed⟩) ∧
    (∀ d, inst.sort_by f = some (SortBy.Reversible d) →
      UseSorter.set_field inst s f r = ⟨f, r⟩) := by
  constructor <;> intro x h
  · by_cases hxr : x = r <;>
      simp [UseSorter.set_field, h, SortBy.ensure_direction, hxr]
  · simp [UseSorter.set_field, h, SortBy.ensure_direction]

/-- Witness for C3: on `instT`, requesting `Ascending` on the
fixed-`Descending` field `gamma` is clamped to `Descending`, while
requesting `Descending` on the reversible field `alpha` is kept. -/
theorem set_field_directions_witness :
    UseSorter.set_field instT ⟨TField.alpha, Direction.Ascending⟩
        TField.gamma Direction.Ascending =
      ⟨TField.gamma, Direction.Descending⟩ ∧
    UseSorter.set_field instT ⟨TField.alpha, Direction.Ascending⟩
        TField.alpha Direction.Descending =
      ⟨TField.alpha, Direction.Descending⟩ :=
  ⟨(set_field_directions instT TField.gamma Direction.Ascending
      ⟨TField.alpha, Direction.Ascending⟩).1 Direction.Descending rfl,
   (set_field_directions instT TField.alpha Direction.Descending
      ⟨TField.alpha, Direction.Ascending⟩).2 Direction.Ascending rfl⟩

/-- C9: on a field whose descriptor is `None` (unsortable), both
`toggle_field` and `set_field` leave the state unchanged — a silent
no-op. -/
theorem unsortable_noop {F : Type} [DecidableEq F] (inst : Sortable F)
    (f : F) (h : inst.sort_by f = none) (s : UseSorter F) (d : Direction) :
    UseSorter.toggle_field inst s f = s ∧
    UseSorter.set_field inst s f d = s := by
  constructor
  · simp [UseSorter.toggle_field, h]
  · simp [UseSorter.set_field, h]

/-- Witness for C9: toggling or setting the unsortable field `delta` of
`instT` leaves the state untouched. -/
theorem unsortable_noop_witness :
    UseSorter.toggle_field instT ⟨TField.alpha, Direction.Ascending⟩
        TField.delta = ⟨TField.alpha, Direction.Ascending⟩ ∧
    UseSorter.set_field instT ⟨TField.alpha, Direction.Ascending⟩
        TField.delta Direction.Descending =
      ⟨TField.alpha, Direction.Ascending⟩ :=
  unsortable_noop instT TField.delta rfl
    ⟨TField.alpha, Direction.Ascending⟩ Direction.Descending

/-- Counterexample for C4: `use_sorter` installs `F::default()` as the
active field without checking its descriptor, so when the default field
is unsortable the initial — reachable — state has an unsortable active
field, violating the claimed invariant. -/
theorem unsortable_default_active_cex :
    Reachable instU UField.only (use_sorter instU UField.only) ∧
    instU.sort_by (use_sorter instU UField.only).field = none ∧
    (DirectionOk instU (use_sorter instU UField.only) → False) :=
  ⟨Reachable.init, rfl, fun h => h⟩

/-- C4 as amended: provided the default field is sortable, every
reachable state keeps the invariant — the direction is permitted by the
active field's descriptor, `Fixed` fields are active only with their
fixed direction, and unsortable fields are never active. -/
theorem reachable_direction_ok {F : Type} [DecidableEq F]
    (inst : Sortable F) (d0 : F) (h0 : inst.sort_by d0 ≠ none)
    (s : UseSorter F) (hr : Reachable inst d0 s) : DirectionOk inst s := by
  induction hr with
  | init =>
    obtain ⟨sb, hsb⟩ := Option.ne_none_iff_exists'.mp h0
    unfold DirectionOk use_sorter Direction.from_field
    simp only [hsb]
    cases sb with
    | Fixed d => simp [SortBy.direction, Option.getD]
    | Reversible d => simp
  | toggle s f hs ih =>
    unfold UseSorter.toggle_field
    cases hsf : inst.sort_by f with
    | none => exact ih
    | some sb =>
      cases sb with
      | Fixed d => simp [DirectionOk, hsf]
      | Reversible d => simp [DirectionOk, hsf]
  | set s f d hs ih =>
    unfold UseSorter.set_field
    cases hsf : inst.sort_by f with
    | none => exact ih
    | some sb =>
      cases sb with
      | Fixed a =>
        by_cases had : a = d <;>
          simp [DirectionOk, hsf, SortBy.ensure_direction, had]
      | Reversible a => simp [DirectionOk, hsf]

/-- Witness for C4 (amended): `instT`'s default field `alpha` is
sortable, and the state reached by toggling over to the
fixed-`Descending` field `gamma` satisfies the invariant. -/
theorem reachable_direction_ok_witness :
    DirectionOk instT
      (UseSorter.toggle_field instT (use_sorter instT TField.alpha)
        TField.gamma) :=
  reachable_direction_ok instT TField.alpha (by decide) _
    (Reachable.toggle _ TField.gamma Reachable.init)

/-- Counterexample for C6: starting from the reachable state
`(alpha, Ascending)`, toggling the reversible field `beta` (initial
direction `Ascending`) twice in succession ends at direction
`Descending`, not the direction `Ascending` held before the first call:
the double-toggle cycle fails when the first toggle switches fields. -/
theorem toggle_twice_cex :
    instT.sort_by TField.beta = some (SortBy.Reversible Direction.Ascending) ∧
    use_sorter instT TField.alpha =
      (⟨TField.alpha, Direction.Ascending⟩ : UseSorter TField) ∧
    (UseSorter.toggle_field instT
        (UseSorter.toggle_field instT (use_sorter instT TField.alpha)
          TField.beta) TField.beta).direction ≠
      (use_sorter instT TField.alpha).direction := by
  refine ⟨rfl, rfl, ?_⟩
  decide

/-- C6 as amended: on a `Reversible` field that is already the active
field, two successive `toggle_field` calls restore the whole state (in
particular the direction); on a `Fixed(d)` field, any positive number
of successive `toggle_field` calls leaves the state at `(f, d)`.  (When
the first toggle switches to a different reversible field, the second
toggle need not restore the previous direction.) -/
theorem toggle_cycle {F : Type} [DecidableEq F] (inst : Sortable F)
    (f : F) :
    (∀ (d : Direction) (s : UseSorter F),
      inst.sort_by f = some (SortBy.Reversible d) → s.field = f →
      UseSorter.toggle_field inst (UseSorter.toggle_field inst s f) f = s) ∧
    (∀ (d : Direction) (s : UseSorter F) (n : Nat),
      inst.sort_by f = some (SortBy.Fixed d) →
      (fun t => UseSorter.toggle_field inst t f)^[n + 1] s = ⟨f, d⟩) := by
  constructor
  · intro d s h hs
    obtain ⟨sf, sd⟩ := s
    simp only at hs
    subst hs
    simp [UseSorter.toggle_field, h, Direction.invert_invert]
  · intro d s n h
    induction n with
    | zero =>
      simp [Function.iterate_one, UseSorter.toggle_field, h]
    | succ n ih =>
      rw [Function.iterate_succ_apply', ih]
      simp [UseSorter.toggle_field, h]

/-- Witness for C6 (amended): re-toggling the active reversible field
`alpha` twice restores the state, and toggling the fixed field `gamma`
three times in a row from an arbitrary state ends at
`(gamma, Descending)`. -/
theorem toggle_cycle_witness :
    UseSorter.toggle_field instT
        (UseSorter.toggle_field instT
          ⟨TField.alpha, Direction.Ascending⟩ TField.alpha) TField.alpha =
      ⟨TField.alpha, Direction.Ascending⟩ ∧
    (fun t => UseSorter.toggle_field instT t TField.gamma)^[3]
        ⟨TField.alpha, Direction.Ascending⟩ =
      ⟨TField.gamma, Direction.Descending⟩ :=
  ⟨(toggle_cycle instT TField.alpha).1 Direction.Ascending
      ⟨TField.alpha, Direction.Ascending⟩ rfl rfl,
   (toggle_cycle instT TField.gamma).2 Direction.Descending
      ⟨TField.alpha, Direction.Ascending⟩ 2 rfl⟩

/-- C10: whenever `sort` returns normally its output is a permutation of
its input — the same multiset, merely reordered — for every state, null
handling and comparator. -/
theorem sort_permutation {F T : Type} (inst : Sortable F)
    (pcmp : F → T → T → Option Ordering) (s : UseSorter F)
    (items out : List T) (h : UseSorter.sort inst pcmp s items = some out) :
    out.Perm items := by
  unfold UseSorter.sort sort_by at h
  split at h
  · injection h with h
    subst h
    exact List.mergeSort_perm items _
  · exact Option.noConfusion h

/-- Witness for C10: sorting `[two, one]` by the reversible field
`alpha` of `instT` yields a permutation of the input. -/
theorem sort_permutation_witness :
    (List.mergeSort [Row.two, Row.one]
        (cmp_le pcmpRow Direction.Ascending NullHandling.Last)).Perm
      [Row.two, Row.one] :=
  sort_permutation instT (fun _ => pcmpRow)
    ⟨TField.alpha, Direction.Ascending⟩ [Row.two, Row.one] _ rfl

/-- C5: under the comparator contract — non-null values are pairwise
comparable — the `(false, false)` arm of the null resolution (the
`unreachable!` panic) is never taken, so the comparator closure is
total and `sort_by` returns normally on every input slice. -/
theorem cmp_no_fatal {T : Type} (pcmp : T → T → Option Ordering)
    (hcomp : ∀ a b : T, is_null pcmp a = false → is_null pcmp b = false →
      (pcmp a b).isSome = true)
    (dir : Direction) (nulls : NullHandling) :
    (∀ a b : T, cmp_entry pcmp dir nulls a b ≠ none) ∧
    (∀ l : List T, (sort_by pcmp dir nulls l).isSome = true) := by
  have hent : ∀ a b : T, cmp_entry pcmp dir nulls a b ≠ none := by
    intro a b h
    unfold cmp_entry at h
    cases hab : pcmp a b with
    | some o => rw [hab] at h; exact Option.noConfusion h
    | none =>
      rw [hab] at h
      cases haa : (pcmp a a).isNone <;> cases hbb : (pcmp b b).isNone <;>
        rw [haa, hbb] at h
      · have := hcomp a b haa hbb
        rw [hab] at this
        exact Bool.noConfusion this
      all_goals exact Option.noConfusion h
  refine ⟨hent, fun l => ?_⟩
  have hguard : l.all (fun a => l.all (fun b =>
      (cmp_entry pcmp dir nulls a b).isSome)) = true :=
    List.all_eq_true.mpr (fun a _ => List.all_eq_true.mpr (fun b _ =>
      Option.ne_none_iff_isSome.mp (hent a b)))
  simp [sort_by, hguard]

/-- Witness for C5: `pcmpRow` satisfies the contract, so sorting the
slice `[nan, one]` — which exercises the null-resolution branch —
returns normally. -/
theorem cmp_no_fatal_witness :
    (sort_by pcmpRow Direction.Descending NullHandling.Last
      [Row.nan, Row.one]).isSome = true :=
  (cmp_no_fatal pcmpRow
    (by intro a b ha hb; revert ha hb; cases a <;> cases b <;> decide)
    Direction.Descending NullHandling.Last).2 [Row.nan, Row.one]

/-- C8: the sort is stable — under the comparator contract, any two
items of the input that compare `Equal` (which includes two items that
are both null) appear in the output in their input order, stated as
preservation of two-element sublists. -/
theorem sort_stable {T : Type} (pcmp : T → T → Option Ordering)
    (hc : CmpContract pcmp) (dir : Direction) (nulls : NullHandling)
    (a b : T) (l out : List T)
    (hsort : sort_by pcmp dir nulls l = some out)
    (hsub : List.Sublist [a, b] l)
    (heq : cmp_entry pcmp dir nulls a b = some Ordering.eq) :
    List.Sublist [a, b] out := by
  unfold sort_by at hsort
  split at hsort
  · injection hsort with hsort
    subst hsort
    refine List.pair_sublist_mergeSort
      (fun x y z => cmp_le_trans hc dir nulls x y z)
      (fun x y => cmp_le_total hc dir nulls x y) ?_ hsub
    rw [cmp_le_eq_true_iff, heq]
    simp
  · exact Option.noConfusion hsort

/-- Witness for C8: the two null rows of `[nan, one, nan]` compare
`Equal` (both-null case) and stay in their original relative order
after sorting. -/
theorem sort_stable_witness :
    List.Sublist [Row.nan, Row.nan]
      (List.mergeSort [Row.nan, Row.one, Row.nan]
        (cmp_le pcmpRow Direction.Ascending NullHandling.Last)) :=
  sort_stable pcmpRow pcmpRow_contract Direction.Ascending
    NullHandling.Last Row.nan Row.nan [Row.nan, Row.one, Row.nan] _ rfl
    (by decide) rfl

/-- C1: under the comparator contract, sorting with
`NullHandling.First` places the null items (those whose self-comparison
is `None`) as a contiguous prefix whose length is their count in the
input, and `NullHandling.Last` places them as a contiguous suffix, for
either direction. -/
theorem sort_null_placement {T : Type} (pcmp : T → T → Option Ordering)
    (hc : CmpContract pcmp) (dir : Direction) (l out1 out2 : List T)
    (h1 : sort_by pcmp dir NullHandling.First l = some out1)
    (h2 : sort_by pcmp dir NullHandling.Last l = some out2) :
    (out1.length = l.length ∧
      (∀ x ∈ out1.take (l.countP (fun x => is_null pcmp x)),
        is_null pcmp x = true) ∧
      (∀ x ∈ out1.drop (l.countP (fun x => is_null pcmp x)),
        is_null pcmp x = false)) ∧
    (out2.length = l.length ∧
      (∀ x ∈ out2.take (l.countP (fun x => !is_null pcmp x)),
        is_null pcmp x = false) ∧
      (∀ x ∈ out2.drop (l.countP (fun x => !is_null pcmp x)),
        is_null pcmp x = true)) := by
  constructor
  · unfold sort_by at h1
    split at h1
    case isFalse => exact Option.noConfusion h1
    injection h1 with h1
    subst h1
    have hsorted :
        (l.mergeSort (cmp_le pcmp dir NullHandling.First)).Pairwise
          (fun a b => cmp_le pcmp dir NullHandling.First a b = true) :=
      List.sorted_mergeSort
        (fun x y z => cmp_le_trans hc dir NullHandling.First x y z)
        (fun x y => cmp_le_total hc dir NullHandling.First x y) l
    have hpart := sorted_partition
      (P := fun x => is_null pcmp x)
      (fun a b hPa hPb => cmp_le_first_false hc dir hPa hPb) hsorted
    have hcp : (l.mergeSort (cmp_le pcmp dir NullHandling.First)).countP
        (fun x => is_null pcmp x) = l.countP (fun x => is_null pcmp x) :=
      (List.mergeSort_perm l _).countP_eq _
    rw [hcp] at hpart
    exact ⟨List.length_mergeSort l, hpart.1, hpart.2⟩
  · unfold sort_by at h2
    split at h2
    case isFalse => exact Option.noConfusion h2
    injection h2 with h2
    subst h2
    have hsorted :
        (l.mergeSort (cmp_le pcmp dir NullHandling.Last)).Pairwise
          (fun a b => cmp_le pcmp dir NullHandling.Last a b = true) :=
      List.sorted_mergeSort
        (fun x y z => cmp_le_trans hc dir NullHandling.Last x y z)
        (fun x y => cmp_le_total hc dir NullHandling.Last x y) l
    have hpart := sorted_partition
      (P := fun x => !is_null pcmp x)
      (fun a b hPa hPb => cmp_le_last_false hc dir
        (by simpa using hPa) (by simpa using hPb)) hsorted
    have hcp : (l.mergeSort (cmp_le pcmp dir NullHandling.Last)).countP
        (fun x => !is_null pcmp x) =
        l.countP (fun x => !is_null pcmp x) :=
      (List.mergeSort_perm l _).countP_eq _
    rw [hcp] at hpart
    refine ⟨List.length_mergeSort l, ?_, ?_⟩
    · intro x hx
      have := hpart.1 x hx
      simpa using this
    · intro x hx
      have := hpart.2 x hx
      simpa using this

/-- Witness for C1: sorting `[two, nan, one]` (one null row) keeps the
length, and the null row `nan` lies in the prefix of length 1 under
`First` while the non-null row `two` lies past it. -/
theorem sort_null_placement_witness :
    (List.mergeSort [Row.two, Row.nan, Row.one]
        (cmp_le pcmpRow Direction.Ascending NullHandling.First)).length =
      [Row.two, Row.nan, Row.one].length ∧
    is_null pcmpRow Row.nan = true ∧
    is_null pcmpRow Row.two = false := by
  have h := sort_null_placement pcmpRow pcmpRow_contract Direction.Ascending
    [Row.two, Row.nan, Row.one] _ _ rfl rfl
  refine ⟨h.1.1, ?_, ?_⟩
  · refine h.1.2.1 Row.nan ?_
    simp [List.mergeSort, cmp_le, cmp_entry, pcmpRow, apply_direction,
      is_null, List.countP, List.countP.go]
  · refine h.1.2.2 Row.two ?_
    simp [List.mergeSort, cmp_le, cmp_entry, pcmpRow, apply_direction,
      is_null, List.countP, List.countP.go]

/-- Counterexample for C7: on the all-non-null slice `[r1, r2]` of two
distinct rows that compare `Equal`, the stable sort returns `[r1, r2]`
for both directions, but the reverse of the ascending output is
`[r2, r1]` — descending is not the exact reverse of ascending when
ties exist. -/
theorem sort_desc_not_reverse_cex :
    is_null pcmpEq RowEq.r1 = false ∧ is_null pcmpEq RowEq.r2 = false ∧
    sort_by pcmpEq Direction.Ascending NullHandling.Last
        [RowEq.r1, RowEq.r2] = some [RowEq.r1, RowEq.r2] ∧
    sort_by pcmpEq Direction.Descending NullHandling.Last
        [RowEq.r1, RowEq.r2] = some [RowEq.r1, RowEq.r2] ∧
    ([RowEq.r1, RowEq.r2] : List RowEq) ≠
      ([RowEq.r1, RowEq.r2] : List RowEq).reverse := by
  have e1 : List.mergeSort [RowEq.r1, RowEq.r2]
      (cmp_le pcmpEq Direction.Ascending NullHandling.Last) =
      [RowEq.r1, RowEq.r2] :=
    List.mergeSort_of_sorted (by decide)
  have e2 : List.mergeSort [RowEq.r1, RowEq.r2]
      (cmp_le pcmpEq Direction.Descending NullHandling.Last) =
      [RowEq.r1, RowEq.r2] :=
    List.mergeSort_of_sorted (by decide)
  refine ⟨rfl, rfl, ?_, ?_, by decide⟩
  · rw [show sort_by pcmpEq Direction.Ascending NullHandling.Last
        [RowEq.r1, RowEq.r2] =
        some (List.mergeSort [RowEq.r1, RowEq.r2]
          (cmp_le pcmpEq Direction.Ascending NullHandling.Last)) from rfl, e1]
  · rw [show sort_by pcmpEq Direction.Descending NullHandling.Last
        [RowEq.r1, RowEq.r2] =
        some (List.mergeSort [RowEq.r1, RowEq.r2]
          (cmp_le pcmpEq Direction.Descending NullHandling.Last)) from rfl, e2]

/-- Two sorted lists that are permutations of each other are equal,
assuming the relation is antisymmetric on the members of the first
list (no global antisymmetry needed). -/
theorem sorted_perm_eq {T : Type} {r : T → T → Prop} :
    ∀ {l₁ l₂ : List T}, l₁.Perm l₂ → l₁.Pairwise r → l₂.Pairwise r →
      (∀ a b, a ∈ l₁ → b ∈ l₁ → r a b → r b a → a = b) → l₁ = l₂ := by
  intro l₁
  induction l₁ with
  | nil =>
    intro l₂ p _ _ _
    exact p.nil_eq
  | cons a t₁ ih =>
    intro l₂ p s₁ s₂ anti
    cases l₂ with
    | nil => exact absurd p.eq_nil (by simp)
    | cons b t₂ =>
      rw [List.pairwise_cons] at s₁ s₂
      obtain ⟨ha₁, st₁⟩ := s₁
      obtain ⟨hb₂, st₂⟩ := s₂
      have hamem : a ∈ b :: t₂ := p.subset (List.mem_cons_self a t₁)
      have hbmem : b ∈ a :: t₁ := p.symm.subset (List.mem_cons_self b t₂)
      have heq : a = b := by
        rcases List.mem_cons.mp hbmem with h | h
        · exact h.symm
        · rcases List.mem_cons.mp hamem with h' | h'
          · exact h'
          · exact anti a b (List.mem_cons_self a t₁) hbmem (ha₁ b h) (hb₂ a h')
      subst heq
      have pt : t₁.Perm t₂ := p.cons_inv
      have ht : t₁ = t₂ := ih pt st₁ st₂
        (fun x y hx hy => anti x y (List.mem_cons_of_mem a hx)
          (List.mem_cons_of_mem a hy))
      rw [ht]

/-- C7 as amended: for every slice `l` in which no item is null under
the field and in which distinct items of the slice never compare
`Equal`, sorting ascending and then sorting the result descending
yields exactly the reverse of the ascending sequence.  Both conditions
are scoped to the slice, so all-non-null slices drawn from a nullable
row type qualify.  (With ties between distinct items, stability makes
both orders agree on the tied pair, so the claim fails as stated.) -/
theorem sort_desc_reverses_asc {T : Type} (pcmp : T → T → Option Ordering)
    (hc : CmpContract pcmp) (nulls : NullHandling)
    (l ascOut descOut : List T)
    (hnn : ∀ x ∈ l, is_null pcmp x = false)
    (hanti : ∀ a ∈ l, ∀ b ∈ l, pcmp a b = some Ordering.eq → a = b)
    (h1 : sort_by pcmp Direction.Ascending nulls l = some ascOut)
    (h2 : sort_by pcmp Direction.Descending nulls ascOut = some descOut) :
    descOut = ascOut.reverse := by
  have hflip : ∀ a b : T, is_null pcmp a = false → is_null pcmp b = false →
      cmp_le pcmp Direction.Descending nulls a b =
      cmp_le pcmp Direction.Ascending nulls b a := by
    intro a b hna hnb
    obtain ⟨o, h⟩ := pcmp_some_of_nonnull hc hna hnb
    have h' : pcmp b a = some o.swap := by rw [hc.symm a b, h]; rfl
    unfold cmp_le
    rw [cmp_entry_pcmp_some h, cmp_entry_pcmp_some h']
    simp [apply_direction]
  unfold sort_by at h1 h2
  split at h1
  case isFalse => exact Option.noConfusion h1
  injection h1 with h1
  subst h1
  split at h2
  case isFalse => exact Option.noConfusion h2
  injection h2 with h2
  subst h2
  have hmemA : ∀ x, x ∈ l.mergeSort (cmp_le pcmp Direction.Ascending nulls) →
      x ∈ l := fun x hx => List.mem_mergeSort.mp hx
  have hsortedA : (l.mergeSort
      (cmp_le pcmp Direction.Ascending nulls)).Pairwise
      (fun a b => cmp_le pcmp Direction.Ascending nulls a b = true) :=
    List.sorted_mergeSort
      (fun x y z => cmp_le_trans hc Direction.Ascending nulls x y z)
      (fun x y => cmp_le_total hc Direction.Ascending nulls x y) l
  have hsortedD : ((l.mergeSort
      (cmp_le pcmp Direction.Ascending nulls)).mergeSort
      (cmp_le pcmp Direction.Descending nulls)).Pairwise
      (fun a b => cmp_le pcmp Direction.Descending nulls a b = true) :=
    List.sorted_mergeSort
      (fun x y z => cmp_le_trans hc Direction.Descending nulls x y z)
      (fun x y => cmp_le_total hc Direction.Descending nulls x y) _
  have hrev : (l.mergeSort
      (cmp_le pcmp Direction.Ascending nulls)).reverse.Pairwise
      (fun a b => cmp_le pcmp Direction.Descending nulls a b = true) := by
    rw [List.pairwise_reverse]
    refine List.Pairwise.imp_of_mem ?_ hsortedA
    intro a b ha hb h
    rw [hflip b a (hnn b (hmemA b hb)) (hnn a (hmemA a ha))]
    exact h
  have hperm : ((l.mergeSort
      (cmp_le pcmp Direction.Ascending nulls)).mergeSort
      (cmp_le pcmp Direction.Descending nulls)).Perm
      (l.mergeSort (cmp_le pcmp Direction.Ascending nulls)).reverse :=
    (List.mergeSort_perm _ _).trans (List.reverse_perm _).symm
  refine sorted_perm_eq hperm hsortedD hrev ?_
  intro a b ha hb hab hba
  have ha' : a ∈ l := hmemA a (List.mem_mergeSort.mp ha)
  have hb' : b ∈ l := hmemA b (List.mem_mergeSort.mp hb)
  obtain ⟨o, h⟩ := pcmp_some_of_nonnull hc (hnn a ha') (hnn b hb')
  have h' : pcmp b a = some o.swap := by rw [hc.symm a b, h]; rfl
  rw [cmp_le_eq_true_iff, cmp_entry_pcmp_some h] at hab
  rw [cmp_le_eq_true_iff, cmp_entry_pcmp_some h'] at hba
  cases o with
  | lt => exact absurd rfl hab
  | eq => exact hanti a ha' b hb' h
  | gt => exact absurd rfl hba

/-- Witness for C7 (amended): on the nullable type `Row`, the
all-non-null, tie-free slice `[two, one]` sorts ascending to
`[one, two]`, and sorting that descending yields `[two, one]` — the
exact reverse. -/
theorem sort_desc_reverses_asc_witness :
    sort_by pcmpRow Direction.Ascending NullHandling.Last
        [Row.two, Row.one] = some [Row.one, Row.two] ∧
    sort_by pcmpRow Direction.Descending NullHandling.Last
        [Row.one, Row.two] = some [Row.two, Row.one] := by
  have h1 : sort_by pcmpRow Direction.Ascending NullHandling.Last
      [Row.two, Row.one] = some [Row.one, Row.two] := by
    rw [show sort_by pcmpRow Direction.Ascending NullHandling.Last
        [Row.two, Row.one] =
        some (List.mergeSort [Row.two, Row.one]
          (cmp_le pcmpRow Direction.Ascending NullHandling.Last)) from rfl]
    simp [List.mergeSort, cmp_le, cmp_entry, pcmpRow, apply_direction]
  have h2 : sort_by pcmpRow Direction.Descending NullHandling.Last
      [Row.one, Row.two] =
      some (List.mergeSort [Row.one, Row.two]
        (cmp_le pcmpRow Direction.Descending NullHandling.Last)) := rfl
  have h3 := sort_desc_reverses_asc pcmpRow pcmpRow_contract
    NullHandling.Last [Row.two, Row.one] _ _
    (by decide) (by decide) h1 h2
  refine ⟨h1, ?_⟩
  rw [h2, h3]
  rfl
